import Mathlib

/-!
Verification development for the text-processor repository
(src/info_extractor.py, src/text_cleaner.py, src/cli.py).

Python strings are modelled as lists of unicode characters (`Text`).
The `re` library behaviour needed by the repository is embedded as a
small backtracking matcher over a regex AST: for a pattern and a start
position it returns the list of candidate match ends in Python's
backtracking priority order (greedy quantifiers longest-first,
alternation left-first), so the head of the list is the match Python
reports.  `findall` is the usual left-to-right non-overlapping scan,
returning the content of capture group 1 when the pattern has a group
(Python's documented `findall` behaviour) and the whole match otherwise.

Character classes `\d`, `\w` are modelled on the ASCII range (the
repository's patterns and the inputs exercised here are ASCII); `\s`
carries the full unicode whitespace set of Python's `str` patterns.
-/

namespace TextProc

/-- Text is a Python string viewed as its list of characters. -/
abbrev Text := List Char

/-- Character class of the regex token d (ASCII decimal digits). -/
def isDigitC (c : Char) : Bool := c.isDigit

/-- Character class of the regex token w: ASCII letters, digits and underscore. -/
def isWordChar (c : Char) : Bool := c.isAlpha || c.isDigit || c = '_'

/-- Whitespace set of Python's s class for str patterns (also the set
stripped by str.strip and split on by str.split). -/
def isPySpace (c : Char) : Bool :=
  c = ' ' || c = '\t' || c = '\n' || c = '\r' ||
  c.toNat = 0x0b || c.toNat = 0x0c ||
  c.toNat = 0x1c || c.toNat = 0x1d || c.toNat = 0x1e || c.toNat = 0x1f ||
  c.toNat = 0x85 || c.toNat = 0xa0 || c.toNat = 0x1680 ||
  (0x2000 ≤ c.toNat && c.toNat ≤ 0x200a) ||
  c.toNat = 0x2028 || c.toNat = 0x2029 || c.toNat = 0x202f ||
  c.toNat = 0x205f || c.toNat = 0x3000

/-- Regex AST covering the constructs used by the repository's patterns:
single-character classes, concatenation, alternation, greedy option,
greedy bounded repetition of a character class (hi = none means
unbounded), greedy star of an arbitrary regex, the word-boundary
assertion b, and a capture group. -/
inductive RE where
  | eps
  | cls (p : Char → Bool)
  | seq (a b : RE)
  | alt (a b : RE)
  | opt (a : RE)
  | repCls (p : Char → Bool) (lo : Nat) (hi : Option Nat)
  | star (a : RE)
  | wb
  | grp (a : RE)

/-- Literal single character. -/
def lit (c : Char) : RE := .cls (fun x => x = c)

/-- Literal character sequence. -/
def strRE (s : Text) : RE := s.foldr (fun c r => .seq (lit c) r) .eps

/-- Greedy one-or-more repetition of a character class. -/
def plusCls (p : Char → Bool) : RE := .repCls p 1 none

/-- Exact n-fold repetition of a regex, by unfolding. -/
def repExact (a : RE) : Nat → RE
  | 0 => .eps
  | n + 1 => .seq a (repExact a n)

/-- Capture information: the span (start, end) of group 1, when set. -/
abbrev Cap := Option (Nat × Nat)

/-- Whether the character at position i is a word character (false out of range). -/
def wordAt (t : Text) (i : Nat) : Bool :=
  match t.get? i with
  | some c => isWordChar c
  | none => false

/-- Python word-boundary test at position i of t. -/
def atBoundary (t : Text) (i : Nat) : Bool :=
  if i = 0 then wordAt t 0 else wordAt t (i - 1) != wordAt t i

/-- Length of the run of characters satisfying p starting at position i. -/
def countRun (t : Text) (p : Char → Bool) (i : Nat) : Nat :=
  ((t.drop i).takeWhile p).length

/-- Candidate ends of a greedy star: iterate the body's candidate ends
(in priority order, requiring strict progress, as Python's engine stops
star iteration on an empty body match), more iterations first, the
zero-iteration candidate last.  The structural fuel argument only
bounds the iteration count; fuel greater than len - i is never
exhausted, since every recursive call strictly increases i below the
bound len. -/
def starLoop (f : Nat → List (Nat × Cap)) (len : Nat) : Nat → Nat → List (Nat × Cap)
  | 0, i => [(i, none)]
  | fuel + 1, i =>
    (((f i).filter (fun jc => decide (i < jc.1 ∧ jc.1 ≤ len))).flatMap
      (fun jc => starLoop f len fuel jc.1)) ++ [(i, none)]

/-- Candidate match ends (with group-1 span) of regex r at position i of
t, in Python's backtracking priority order: the head of the list is the
match Python's engine reports at this position. -/
def matchEnds (t : Text) : RE → Nat → List (Nat × Cap)
  | .eps, i => [(i, none)]
  | .cls p, i =>
      match t.get? i with
      | some c => if p c then [(i + 1, none)] else []
      | none => []
  | .seq a b, i =>
      (matchEnds t a i).flatMap (fun jc =>
        (matchEnds t b jc.1).map (fun kc => (kc.1, jc.2.orElse (fun _ => kc.2))))
  | .alt a b, i => matchEnds t a i ++ matchEnds t b i
  | .opt a, i => matchEnds t a i ++ [(i, none)]
  | .repCls p lo hi, i =>
      let run := countRun t p i
      let m := match hi with | some h => min run h | none => run
      if m < lo then []
      else (List.range (m - lo + 1)).map (fun d => (i + (m - d), none))
  | .star a, i => starLoop (fun j => matchEnds t a j) t.length (t.length + 1) i
  | .wb, i => if atBoundary t i then [(i, none)] else []
  | .grp a, i => (matchEnds t a i).map (fun jc => (jc.1, some (i, jc.1)))

/-- Whether the pattern contains a capture group. -/
def hasGrp : RE → Bool
  | .eps => false
  | .cls _ => false
  | .seq a b => hasGrp a || hasGrp b
  | .alt a b => hasGrp a || hasGrp b
  | .opt a => hasGrp a
  | .repCls _ _ _ => false
  | .star a => hasGrp a
  | .wb => false
  | .grp _ => true

/-- Substring of t from position a (inclusive) to b (exclusive). -/
def slice (t : Text) (a b : Nat) : Text := (t.drop a).take (b - a)

/-- The token findall records for a match spanning i..j with capture
cap: the group-1 content when the pattern has a group (empty string for
an unmatched group, as in Python), the whole match otherwise. -/
def tokenOf (t : Text) (hasG : Bool) (i j : Nat) (cap : Cap) : Text :=
  if hasG then
    match cap with
    | some ab => slice t ab.1 ab.2
    | none => []
  else slice t i j

/-- Left-to-right non-overlapping scan of re.findall / re.finditer:
at each position try the pattern, record the reported match, resume at
its end (one past it for an empty match).  The structural fuel
argument only bounds the scan length; fuel greater than t.length - i
is never exhausted, since the position strictly increases and the scan
stops past the end of the text. -/
def scanFind (t : Text) (r : RE) (hasG : Bool) : Nat → Nat → List Text
  | 0, _ => []
  | fuel + 1, i =>
    if t.length < i then []
    else
      match (matchEnds t r i).head? with
      | some jc =>
          tokenOf t hasG i jc.1 jc.2 ::
            scanFind t r hasG fuel (if i < jc.1 then jc.1 else i + 1)
      | none => scanFind t r hasG fuel (i + 1)

/-- Model of re.findall(r, t). -/
def findall (r : RE) (t : Text) : List Text := scanFind t r (hasGrp r) (t.length + 1) 0

/-! Pattern table of InfoExtractor.__init__ (src/info_extractor.py).
Each definition transliterates the quoted Python regex. -/

/-- Separator class of the phone patterns: [-.\s]. -/
def phoneSep (c : Char) : Bool := c = '-' || c = '.' || isPySpace c

/-- Email pattern: b[A-Za-z0-9._%+-]+@[A-Za-z0-9.-]+.[A-Z|a-z]\x7b2,\x7db
(the dot before the TLD is escaped in the source; the TLD class
[A-Z|a-z] literally contains the pipe character). -/
def emailRE : RE :=
  .seq .wb (.seq
    (plusCls (fun c => c.isAlpha || c.isDigit || c = '.' || c = '_' || c = '%' || c = '+' || c = '-'))
    (.seq (lit '@')
      (.seq (plusCls (fun c => c.isAlpha || c.isDigit || c = '.' || c = '-'))
        (.seq (lit '.')
          (.seq (.repCls (fun c => c.isAlpha || c = '|') 2 none) .wb)))))

/-- URL pattern: https?://[^s]+ (the class is non-whitespace). -/
def urlRE : RE :=
  .seq (strRE ['h', 't', 't', 'p']) (.seq (.opt (lit 's'))
    (.seq (strRE [':', '/', '/']) (plusCls (fun c => !isPySpace c))))

/-- International phone pattern:
+d\x7b1,3\x7d[-.s]?d\x7b1,4\x7d[-.s]?d\x7b1,4\x7d[-.s]?d\x7b1,9\x7d. -/
def phoneIntlRE : RE :=
  .seq (lit '+') (.seq (.repCls isDigitC 1 (some 3))
    (.seq (.opt (.cls phoneSep)) (.seq (.repCls isDigitC 1 (some 4))
      (.seq (.opt (.cls phoneSep)) (.seq (.repCls isDigitC 1 (some 4))
        (.seq (.opt (.cls phoneSep)) (.repCls isDigitC 1 (some 9))))))))

/-- US phone pattern: (?d\x7b3\x7d)?[-.s]?d\x7b3\x7d[-.s]?d\x7b4\x7d
(with escaped literal parentheses). -/
def phoneUsRE : RE :=
  .seq (.opt (lit '(')) (.seq (.repCls isDigitC 3 (some 3))
    (.seq (.opt (lit ')')) (.seq (.opt (.cls phoneSep))
      (.seq (.repCls isDigitC 3 (some 3)) (.seq (.opt (.cls phoneSep))
        (.repCls isDigitC 4 (some 4)))))))

/-- Slash date pattern: bd\x7b1,2\x7d/d\x7b1,2\x7d/d\x7b2,4\x7db. -/
def dateSlashRE : RE :=
  .seq .wb (.seq (.repCls isDigitC 1 (some 2)) (.seq (lit '/')
    (.seq (.repCls isDigitC 1 (some 2)) (.seq (lit '/')
      (.seq (.repCls isDigitC 2 (some 4)) .wb)))))

/-- Dash date pattern: bd\x7b4\x7d-d\x7b2\x7d-d\x7b2\x7db. -/
def dateDashRE : RE :=
  .seq .wb (.seq (.repCls isDigitC 4 (some 4)) (.seq (lit '-')
    (.seq (.repCls isDigitC 2 (some 2)) (.seq (lit '-')
      (.seq (.repCls isDigitC 2 (some 2)) .wb)))))

/-- 24-hour time pattern: b([01]?[0-9]|2[0-3]):[0-5][0-9]b.
Note the parenthesised hour alternative is a capture group. -/
def time24hRE : RE :=
  .seq .wb (.seq
    (.grp (.alt
      (.seq (.opt (.cls (fun c => c = '0' || c = '1'))) (.cls isDigitC))
      (.seq (lit '2') (.cls (fun c => '0' ≤ c && c ≤ '3')))))
    (.seq (lit ':')
      (.seq (.cls (fun c => '0' ≤ c && c ≤ '5')) (.seq (.cls isDigitC) .wb))))

/-- 12-hour time pattern: bd\x7b1,2\x7d:[0-5][0-9]s*(?:AM|PM|am|pm)b. -/
def time12hRE : RE :=
  .seq .wb (.seq (.repCls isDigitC 1 (some 2)) (.seq (lit ':')
    (.seq (.cls (fun c => '0' ≤ c && c ≤ '5')) (.seq (.cls isDigitC)
      (.seq (.repCls isPySpace 0 none)
        (.seq (.alt (strRE ['A', 'M']) (.alt (strRE ['P', 'M'])
          (.alt (strRE ['a', 'm']) (strRE ['p', 'm'])))) .wb))))))

/-- USD currency pattern: $d+(?:,d\x7b3\x7d)*(?:.d\x7b2\x7d)?
(dollar sign and dot escaped in the source). -/
def currencyUsdRE : RE :=
  .seq (lit '$') (.seq (plusCls isDigitC)
    (.seq (.star (.seq (lit ',') (.repCls isDigitC 3 (some 3))))
      (.opt (.seq (lit '.') (.repCls isDigitC 2 (some 2))))))

/-- SAR currency pattern: (?:SAR|SR)s*d+(?:,d\x7b3\x7d)*(?:.d\x7b2\x7d)?. -/
def currencySarRE : RE :=
  .seq (.alt (strRE ['S', 'A', 'R']) (strRE ['S', 'R']))
    (.seq (.repCls isPySpace 0 none) (.seq (plusCls isDigitC)
      (.seq (.star (.seq (lit ',') (.repCls isDigitC 3 (some 3))))
        (.opt (.seq (lit '.') (.repCls isDigitC 2 (some 2)))))))

/-- Hashtag pattern: followed by w+. -/
def hashtagRE : RE := .seq (lit '#') (plusCls isWordChar)

/-- Mention pattern: the at sign followed by w+. -/
def mentionRE : RE := .seq (lit '@') (plusCls isWordChar)

/-- Credit-card pattern: bd\x7b4\x7d[-s]?d\x7b4\x7d[-s]?d\x7b4\x7d[-s]?d\x7b4\x7db. -/
def creditCardRE : RE :=
  .seq .wb (.seq (.repCls isDigitC 4 (some 4))
    (.seq (.opt (.cls (fun c => c = '-' || isPySpace c)))
      (.seq (.repCls isDigitC 4 (some 4))
        (.seq (.opt (.cls (fun c => c = '-' || isPySpace c)))
          (.seq (.repCls isDigitC 4 (some 4))
            (.seq (.opt (.cls (fun c => c = '-' || isPySpace c)))
              (.seq (.repCls isDigitC 4 (some 4)) .wb)))))))

/-- Zip-code pattern: bd\x7b5\x7d(?:-d\x7b4\x7d)?b. -/
def zipCodeRE : RE :=
  .seq .wb (.seq (.repCls isDigitC 5 (some 5))
    (.seq (.opt (.seq (lit '-') (.repCls isDigitC 4 (some 4)))) .wb))

/-- IPv4 pattern: b(?:d\x7b1,3\x7d.)\x7b3\x7dd\x7b1,3\x7db. -/
def ipv4RE : RE :=
  .seq .wb (.seq (repExact (.seq (.repCls isDigitC 1 (some 3)) (lit '.')) 3)
    (.seq (.repCls isDigitC 1 (some 3)) .wb))

/-- The pre-compiled pattern registry self.patterns of
InfoExtractor.__init__, keyed as in the source. -/
def patterns : List (String × RE) :=
  [("email", emailRE), ("url", urlRE),
   ("phone_intl", phoneIntlRE), ("phone_us", phoneUsRE),
   ("date_slash", dateSlashRE), ("date_dash", dateDashRE),
   ("time_24h", time24hRE), ("time_12h", time12hRE),
   ("currency_usd", currencyUsdRE), ("currency_sar", currencySarRE),
   ("hashtag", hashtagRE), ("mention", mentionRE),
   ("credit_card", creditCardRE), ("zip_code", zipCodeRE),
   ("ipv4", ipv4RE)]

/-- Registry lookup, as self.patterns[name] (names used are all present). -/
def getPattern (name : String) : RE := ((patterns.lookup name).getD .eps)

/-! The InfoExtractor accessors (src/info_extractor.py).  The held text
self.text is passed explicitly. -/

def extract_emails (t : Text) : List Text := findall (getPattern "email") t

def extract_urls (t : Text) : List Text := findall (getPattern "url") t

/-- Phone extraction concatenates both phone patterns and removes
duplicates via list(set(phones)); Python's set iteration order is
unspecified, modelled here by List.dedup (membership and uniqueness
agree with any set order). -/
def extract_phones (t : Text) : List Text :=
  (findall (getPattern "phone_intl") t ++ findall (getPattern "phone_us") t).dedup

def extract_dates (t : Text) : List Text :=
  findall (getPattern "date_slash") t ++ findall (getPattern "date_dash") t

def extract_times (t : Text) : List Text :=
  findall (getPattern "time_24h") t ++ findall (getPattern "time_12h") t

def extract_currency (t : Text) : List Text :=
  findall (getPattern "currency_usd") t ++ findall (getPattern "currency_sar") t

def extract_hashtags (t : Text) : List Text := findall (getPattern "hashtag") t

def extract_mentions (t : Text) : List Text := findall (getPattern "mention") t

/-- Credit-card extraction masks each raw match m as
"****-****-****-" followed by m[-4:] (the last four characters). -/
def extract_credit_cards (t : Text) : List Text :=
  (findall (getPattern "credit_card") t).map
    (fun card => ('*' :: '*' :: '*' :: '*' :: '-' ::
      '*' :: '*' :: '*' :: '*' :: '-' ::
      '*' :: '*' :: '*' :: '*' :: '-' :: []) ++ card.drop (card.length - 4))

def extract_ip_addresses (t : Text) : List Text := findall (getPattern "ipv4") t

/-- The extraction report of extract_all, an ordered key/value mapping. -/
def extract_all (t : Text) : List (String × List Text) :=
  [("emails", extract_emails t),
   ("urls", extract_urls t),
   ("phones", extract_phones t),
   ("dates", extract_dates t),
   ("times", extract_times t),
   ("currency", extract_currency t),
   ("hashtags", extract_hashtags t),
   ("mentions", extract_mentions t),
   ("credit_cards", extract_credit_cards t),
   ("ip_addresses", extract_ip_addresses t)]

/-! TextCleaner (src/text_cleaner.py).  Each re.sub call of the source
is transliterated as a direct left-to-right non-overlapping scan. -/

/-- Dropping a matching run never lengthens a list. -/
theorem dropWhile_length_le (p : Char → Bool) (l : List Char) :
    (l.dropWhile p).length ≤ l.length :=
  (List.dropWhile_sublist (l := l) (p := p)).length_le

/-- Model of re.sub(r'<[^>]+>', '', t): at each opening angle bracket,
delete through the first closing angle bracket provided at least one
character stands between them ([^>]+ cannot cross or be empty). -/
def removeHtmlTags : Text → Text
  | [] => []
  | c :: cs =>
    if c = '<' then
      match cs.findIdx? (fun x => x = '>') with
      | none => c :: removeHtmlTags cs
      | some 0 => c :: removeHtmlTags cs
      | some (k + 1) => removeHtmlTags (cs.drop (k + 2))
    else c :: removeHtmlTags cs
termination_by t => t.length
decreasing_by
  all_goals simp only [List.length_drop, List.length_cons]
  all_goals omega

/-- Model of re.sub(r'https?://S+', '', t) (S is non-whitespace): a
match needs the literal scheme prefix followed by at least one
non-space character; the greedy S+ then runs to the end of the
non-space run. -/
def removeHttpUrls : Text → Text
  | [] => []
  | c :: cs =>
    if ['h', 't', 't', 'p', 's', ':', '/', '/'].isPrefixOf (c :: cs)
        ∧ ((c :: cs).drop 8).takeWhile (fun x => !isPySpace x) ≠ [] then
      removeHttpUrls (((c :: cs).drop 8).dropWhile (fun x => !isPySpace x))
    else if ['h', 't', 't', 'p', ':', '/', '/'].isPrefixOf (c :: cs)
        ∧ ((c :: cs).drop 7).takeWhile (fun x => !isPySpace x) ≠ [] then
      removeHttpUrls (((c :: cs).drop 7).dropWhile (fun x => !isPySpace x))
    else c :: removeHttpUrls cs
termination_by t => t.length
decreasing_by
  all_goals
    have h8 := dropWhile_length_le (fun x => !isPySpace x) ((c :: cs).drop 8)
    have h7 := dropWhile_length_le (fun x => !isPySpace x) ((c :: cs).drop 7)
    simp only [List.length_drop, List.length_cons] at h8 h7 ⊢
    omega

/-- Model of re.sub(r'www.S+', '', t) (the dot is escaped in the
source): literal www. followed by at least one non-space character. -/
def removeWwwUrls : Text → Text
  | [] => []
  | c :: cs =>
    if ['w', 'w', 'w', '.'].isPrefixOf (c :: cs)
        ∧ ((c :: cs).drop 4).takeWhile (fun x => !isPySpace x) ≠ [] then
      removeWwwUrls (((c :: cs).drop 4).dropWhile (fun x => !isPySpace x))
    else c :: removeWwwUrls cs
termination_by t => t.length
decreasing_by
  all_goals
    have h4 := dropWhile_length_le (fun x => !isPySpace x) ((c :: cs).drop 4)
    simp only [List.length_drop, List.length_cons] at h4 ⊢
    omega

/-- Whether a maximal non-space run is deleted by re.sub(r'S+@S+', '', t):
by greedy backtracking a match starting at the head of the run exists
exactly when the run holds an at sign with at least one character
before it and one after it inside the run, and such a match swallows
the entire run; no run without such an at sign matches anywhere inside. -/
def emailRunMatches (run : Text) : Bool := ((run.drop 1).dropLast).contains '@'

/-- Model of re.sub(r'S+@S+', '', t): delete every maximal non-space
run containing an interior at sign (the head character of the run is
non-space, so the run is the head followed by the non-space take of the
tail). -/
def removeEmailsText : Text → Text
  | [] => []
  | c :: cs =>
    if isPySpace c then c :: removeEmailsText cs
    else
      (if emailRunMatches (c :: cs.takeWhile (fun x => !isPySpace x)) then []
       else c :: cs.takeWhile (fun x => !isPySpace x)) ++
        removeEmailsText (cs.dropWhile (fun x => !isPySpace x))
termination_by t => t.length
decreasing_by
  all_goals
    have h1 := dropWhile_length_le (fun x => !isPySpace x) cs
    simp only [List.length_cons] at h1 ⊢
    omega

/-- Consume exactly n leading decimal digits, returning the rest. -/
def takeDigits : Nat → Text → Option Text
  | 0, t => some t
  | _ + 1, [] => none
  | n + 1, c :: cs => if c.isDigit then takeDigits n cs else none

/-- Successful digit consumption shortens the text by exactly n. -/
theorem takeDigits_length {n : Nat} {t r : Text} (h : takeDigits n t = some r) :
    r.length + n = t.length := by
  induction n generalizing t with
  | zero => simp [takeDigits] at h; simp [h]
  | succ m ih =>
    match t with
    | [] => simp [takeDigits] at h
    | c :: cs =>
      simp only [takeDigits] at h
      split at h
      · have := ih h
        simp
        omega
      · exact absurd h (by simp)

/-- Consume one optional separator of the class [-.]. -/
def dropSepDot (t : Text) : Text :=
  match t with
  | c :: cs => if c = '-' || c = '.' then cs else c :: cs
  | [] => []

theorem dropSepDot_length (t : Text) : (dropSepDot t).length ≤ t.length := by
  match t with
  | [] => simp [dropSepDot]
  | c :: cs => simp only [dropSepDot]; split <;> simp

/-- Attempted match of d\x7b3\x7d[-.]?d\x7b3\x7d[-.]?d\x7b4\x7d at the head of
t, returning the rest after the match (greedy; when an optional
separator is taken and the following digit requirement fails, the
backtracking alternative resumes at the separator character, which is
not a digit, so it fails as well and straight-line greedy parsing is
exact). -/
def phonePatARest (t : Text) : Option Text := do
  let t1 ← takeDigits 3 t
  let t2 ← takeDigits 3 (dropSepDot t1)
  takeDigits 4 (dropSepDot t2)

theorem phonePatARest_length {t r : Text} (h : phonePatARest t = some r) :
    r.length < t.length := by
  unfold phonePatARest at h
  cases h1 : takeDigits 3 t with
  | none => rw [h1] at h; simp at h
  | some t1 =>
    rw [h1] at h
    simp only [Option.bind_eq_bind, Option.some_bind] at h
    cases h2 : takeDigits 3 (dropSepDot t1) with
    | none => rw [h2] at h; simp at h
    | some t2 =>
      rw [h2] at h
      simp only [Option.some_bind] at h
      have l1 := takeDigits_length h1
      have l2 := takeDigits_length h2
      have l3 := takeDigits_length h
      have d1 := dropSepDot_length t1
      have d2 := dropSepDot_length t2
      omega

theorem dropWhileSpace_length_le (l : List Char) :
    (l.dropWhile isPySpace).length ≤ l.length :=
  dropWhile_length_le isPySpace l

/-- Model of re.sub of the first phone pattern of remove_phone_numbers. -/
def removePhoneA : Text → Text
  | [] => []
  | c :: cs =>
    match h : phonePatARest (c :: cs) with
    | some rest => removePhoneA rest
    | none => c :: removePhoneA cs
termination_by t => t.length
decreasing_by
  · exact phonePatARest_length h
  · simp

/-- Attempted match of the parenthesised phone pattern
(d\x7b3\x7d)s*d\x7b3\x7d[-.]?d\x7b4\x7d at the head of t (the greedy s* must run
to the last space, since stopping earlier leaves a space where a digit
is required). -/
def phonePatBRest (t : Text) : Option Text :=
  match t with
  | '(' :: rest =>
    (do
      let t1 ← takeDigits 3 rest
      match t1 with
      | ')' :: r2 => do
          let t2 ← takeDigits 3 (r2.dropWhile isPySpace)
          takeDigits 4 (dropSepDot t2)
      | _ => none)
  | _ => none

theorem phonePatBRest_length {t r : Text} (h : phonePatBRest t = some r) :
    r.length < t.length := by
  unfold phonePatBRest at h
  split at h
  case _ rest =>
    cases h1 : takeDigits 3 rest with
    | none => rw [h1] at h; simp at h
    | some t1 =>
      rw [h1] at h
      simp only [Option.bind_eq_bind, Option.some_bind] at h
      split at h
      case _ r2 =>
        cases h2 : takeDigits 3 (r2.dropWhile isPySpace) with
        | none => rw [h2] at h; simp at h
        | some t2 =>
          rw [h2] at h
          simp only [Option.some_bind] at h
          have l1 := takeDigits_length h1
          have l2 := takeDigits_length h2
          have l3 := takeDigits_length h
          have d1 := dropWhileSpace_length_le r2
          have d2 := dropSepDot_length t2
          simp at l1 l2 ⊢
          omega
      case _ => simp at h
  case _ => simp at h

/-- Model of re.sub of the second phone pattern of remove_phone_numbers. -/
def removePhoneB : Text → Text
  | [] => []
  | c :: cs =>
    match h : phonePatBRest (c :: cs) with
    | some rest => removePhoneB rest
    | none => c :: removePhoneB cs
termination_by t => t.length
decreasing_by
  · exact phonePatBRest_length h
  · simp

/-- Rest of the text after the greedy match of d+.?d* whose d+ starts
at the head of cs-with-a-digit-prepended: drop the digit run, one
optional dot, and a further digit run. -/
def numTail (cs : Text) : Text :=
  match cs.dropWhile Char.isDigit with
  | '.' :: rest => rest.dropWhile Char.isDigit
  | r1 => r1

theorem numTail_length (cs : Text) : (numTail cs).length ≤ cs.length := by
  unfold numTail
  have h1 := dropWhile_length_le Char.isDigit cs
  split
  case _ rest heq =>
    have h2 := dropWhile_length_le Char.isDigit rest
    rw [heq] at h1
    simp at h1
    omega
  case _ => exact h1

/-- Model of re.sub(r'd+.?d*', '', t) (the dot is escaped in the
source): each match starts at a digit, takes the digit run, an optional
dot, and a trailing digit run. -/
def removeNumbersText : Text → Text
  | [] => []
  | c :: cs =>
    if c.isDigit then removeNumbersText (numTail cs)
    else c :: removeNumbersText cs
termination_by t => t.length
decreasing_by
  · have := numTail_length cs
    simp
    omega
  · simp

/-- Model of re.sub(r'[^a-zA-Z0-9s]', '', t) and its keep_spaces=False
variant [^a-zA-Z0-9]: a single-character class deletion is a filter. -/
def removeSpecialChars (keep_spaces : Bool) (t : Text) : Text :=
  if keep_spaces then t.filter (fun c => c.isAlpha || c.isDigit || isPySpace c)
  else t.filter (fun c => c.isAlpha || c.isDigit)

/-- Python str.lower per character.  Modelled on the ASCII range plus
the length-changing full case mapping of the dotted capital I (U+0130,
which lowercases to two characters); other characters are left fixed,
which agrees with Python on every character these theorems touch. -/
def pyLowerChar (c : Char) : Text :=
  if c.toNat = 0x130 then ['i', Char.ofNat 0x307] else [c.toLower]

/-- Python str.upper per character.  Modelled on the ASCII range plus
the length-changing full case mapping of the German sharp s (which
uppercases to SS); other characters are left fixed. -/
def pyUpperChar (c : Char) : Text :=
  if c = 'ß' then ['S', 'S'] else [c.toUpper]

/-- Python str.lower on a string. -/
def pyLower (t : Text) : Text := t.flatMap pyLowerChar

/-- Python str.upper on a string. -/
def pyUpper (t : Text) : Text := t.flatMap pyUpperChar

/-- Python str.replace of one character by one character. -/
def replaceChar (old new : Char) (t : Text) : Text :=
  t.map (fun c => if c = old then new else c)

/-- Model of re.sub(r's+', ' ', t): replace every maximal whitespace
run by a single space.  The flag records whether the previous
character was whitespace, so the single space is emitted at the head
of each maximal run and the run's remaining characters are dropped. -/
def collapseAux (prevSpace : Bool) : Text → Text
  | [] => []
  | c :: cs =>
    if isPySpace c then
      if prevSpace then collapseAux true cs else ' ' :: collapseAux true cs
    else c :: collapseAux false cs

/-- Model of re.sub(r's+', ' ', t). -/
def collapseSpaces (t : Text) : Text := collapseAux false t

/-- Python str.strip(): drop leading and trailing whitespace
(rdropWhile removes the matching run at the right end). -/
def pyStrip (t : Text) : Text := (t.dropWhile isPySpace).rdropWhile isPySpace

/-- Fragment of the transliteration table of the third-party unidecode
library (an external collaborator of the repository): ASCII code points
map to themselves; the non-ASCII entries needed here follow its table;
code points outside the fragment are dropped, as unidecode maps unknown
characters to the empty string. -/
def unidecodeChar (c : Char) : Text :=
  if c.toNat < 128 then [c]
  else if c = 'ß' then ['s', 's']
  else if c = 'é' then ['e']
  else if c = 'è' then ['e']
  else if c = 'ü' then ['u']
  else if c = 'ñ' then ['n']
  else if c = 'ç' then ['c']
  else if c = 'à' then ['a']
  else if c.toNat = 0x2019 then ['\x27']
  else if c.toNat = 0x20ac then ['E', 'U', 'R']
  else []

/-- Model of unidecode(t). -/
def unidecodeText (t : Text) : Text := t.flatMap unidecodeChar

/-- Maximal non-space runs of t, in order (Python str.split()). -/
def pyWords : Text → List Text
  | [] => []
  | c :: cs =>
    if isPySpace c then pyWords cs
    else (c :: cs.takeWhile (fun x => !isPySpace x)) ::
      pyWords (cs.dropWhile (fun x => !isPySpace x))
termination_by t => t.length
decreasing_by
  all_goals
    have h1 := dropWhile_length_le (fun x => !isPySpace x) cs
    simp only [List.length_cons] at h1 ⊢
    omega

/-- Model of ' '.join(t.split()). -/
def removeExtraSpacesText (t : Text) : Text := List.intercalate [' '] (pyWords t)

/-! The TextCleaner state and its chainable transform methods. -/

/-- The transforms of TextCleaner, remove_special_characters carrying
its keyword argument. -/
inductive Step where
  | remove_html_tags
  | remove_urls
  | remove_emails
  | remove_phone_numbers
  | remove_numbers
  | remove_special_characters (keep_spaces : Bool)
  | to_lowercase
  | to_uppercase
  | normalize_whitespace
  | normalize_unicode
  | remove_extra_spaces
deriving DecidableEq

/-- The pure text rewrite each transform performs on self.text,
following the source line by line (remove_urls and
remove_phone_numbers each apply their two substitutions in source
order; normalize_whitespace replaces tabs then newlines by spaces,
collapses whitespace runs, then strips). -/
def stepText : Step → Text → Text
  | .remove_html_tags, t => removeHtmlTags t
  | .remove_urls, t => removeWwwUrls (removeHttpUrls t)
  | .remove_emails, t => removeEmailsText t
  | .remove_phone_numbers, t => removePhoneB (removePhoneA t)
  | .remove_numbers, t => removeNumbersText t
  | .remove_special_characters ks, t => removeSpecialChars ks t
  | .to_lowercase, t => pyLower t
  | .to_uppercase, t => pyUpper t
  | .normalize_whitespace, t =>
      pyStrip (collapseSpaces (replaceChar '\n' ' ' (replaceChar '\t' ' ' t)))
  | .normalize_unicode, t => unidecodeText t
  | .remove_extra_spaces, t => removeExtraSpacesText t

/-- The step name each transform logs. -/
def stepName : Step → String
  | .remove_html_tags => "remove_html_tags"
  | .remove_urls => "remove_urls"
  | .remove_emails => "remove_emails"
  | .remove_phone_numbers => "remove_phone_numbers"
  | .remove_numbers => "remove_numbers"
  | .remove_special_characters _ => "remove_special_characters"
  | .to_lowercase => "to_lowercase"
  | .to_uppercase => "to_uppercase"
  | .normalize_whitespace => "normalize_whitespace"
  | .normalize_unicode => "normalize_unicode"
  | .remove_extra_spaces => "remove_extra_spaces"

/-- One entry of self.cleaning_steps. -/
structure StepRecord where
  step : String
  chars_removed : Int
deriving DecidableEq

/-- State of a TextCleaner instance. -/
structure TextCleaner where
  original_text : Text
  text : Text
  cleaning_steps : List StepRecord
deriving DecidableEq

/-- TextCleaner.__init__(text). -/
def mkCleaner (t : Text) : TextCleaner := ⟨t, t, []⟩

/-- The chars_removed value a transform logs: to_lowercase and
to_uppercase log the constant 0, every other transform logs
len(before) - len(after). -/
def loggedDelta (s : Step) (before after : Nat) : Int :=
  match s with
  | .to_lowercase => 0
  | .to_uppercase => 0
  | _ => (before : Int) - (after : Int)

/-- One transform method call: rewrite self.text and append the step
record, returning self. -/
def applyStep (c : TextCleaner) (s : Step) : TextCleaner :=
  let t2 := stepText s c.text
  { original_text := c.original_text
    text := t2
    cleaning_steps :=
      c.cleaning_steps ++ [⟨stepName s, loggedDelta s c.text.length t2.length⟩] }

/-- A chained sequence of transform calls, left to right. -/
def applyAll (c : TextCleaner) (ss : List Step) : TextCleaner := ss.foldl applyStep c

/-- TextCleaner.get_cleaned_text(). -/
def get_cleaned_text (c : TextCleaner) : Text := c.text

/-- The dictionary TextCleaner.get_report() returns. -/
structure CleaningReport where
  original_length : Nat
  final_length : Nat
  chars_removed : Int
  steps_applied : List StepRecord
deriving DecidableEq

/-- TextCleaner.get_report(). -/
def get_report (c : TextCleaner) : CleaningReport :=
  { original_length := c.original_text.length
    final_length := c.text.length
    chars_removed := (c.original_text.length : Int) - (c.text.length : Int)
    steps_applied := c.cleaning_steps }

/-- TextCleaner.reset(): restore self.text from self.original_text,
clear the step log, return self. -/
def reset (c : TextCleaner) : TextCleaner :=
  { original_text := c.original_text, text := c.original_text, cleaning_steps := [] }

/-- Sum of the chars_removed entries of a step log. -/
def sumRemoved (rs : List StepRecord) : Int := (rs.map StepRecord.chars_removed).sum

/-- Whether every to_lowercase / to_uppercase call in the run leaves
the length of the text it recases unchanged (Python full case mapping
can change a string's length, e.g. the sharp s uppercases to SS; on
ASCII text recasing always preserves length). -/
def recasingSafe : TextCleaner → List Step → Bool
  | _, [] => true
  | c, s :: ss =>
    (if s = Step.to_lowercase ∨ s = Step.to_uppercase then
      decide ((stepText s c.text).length = c.text.length)
     else true) && recasingSafe (applyStep c s) ss

/-! Pipeline driver process_text (src/cli.py), restricted to the
dataflow of the cleaning and pattern-extraction stages (file handling,
printing, the linguistic stage, and NER touch only external
collaborators and never reassign the text variables). -/

/-- The flags of process_text that affect the cleaning stage and the
pattern-extraction stage. -/
structure CliArgs where
  clean : Bool
  lowercase : Bool
  extract_info : Bool

/-- Result of process_text: the final value of the text variable and
the extraction report of step 3 when --extract-info is set. -/
structure CliResult where
  final_text : Text
  extraction : Option (List (String × List Text))

/-- The fixed chain of cleaner calls of cli.py step 1, in source
order. -/
def cliCleanSteps : List Step :=
  [.remove_html_tags, .remove_urls, .remove_emails, .remove_phone_numbers,
   .remove_special_characters true, .normalize_unicode, .normalize_whitespace]

/-- process_text: store original_text, optionally clean (with optional
lowercasing), then run extraction on original_text, not the cleaned
text (cli.py line 143). -/
def process_text (text : Text) (a : CliArgs) : CliResult :=
  let original_text := text
  let text :=
    if a.clean then
      let cleaned := get_cleaned_text (applyAll (mkCleaner text) cliCleanSteps)
      if a.lowercase then pyLower cleaned else cleaned
    else text
  { final_text := text
    extraction := if a.extract_info then some (extract_all original_text) else none }

/-! Theorems. -/

/-- Adjacent characters are not both whitespace. -/
def noAdj (a b : Char) : Prop := ¬(isPySpace a = true ∧ isPySpace b = true)

/-- Every character collapseAux emits is a space it inserted or a
non-space character of the input. -/
theorem collapseAux_mem {s : Text} :
    ∀ {b : Bool} {c : Char}, c ∈ collapseAux b s →
      c = ' ' ∨ (c ∈ s ∧ isPySpace c = false) := by
  induction s with
  | nil => intro b c hc; simp [collapseAux] at hc
  | cons a as ih =>
    intro b c hc
    rw [collapseAux] at hc
    by_cases ha : isPySpace a = true
    · rw [if_pos ha] at hc
      cases b with
      | true =>
        rcases ih hc with h | h
        · exact Or.inl h
        · exact Or.inr ⟨List.mem_cons_of_mem a h.1, h.2⟩
      | false =>
        rcases List.mem_cons.mp hc with h1 | h1
        · exact Or.inl h1
        · rcases ih h1 with h | h
          · exact Or.inl h
          · exact Or.inr ⟨List.mem_cons_of_mem a h.1, h.2⟩
    · rw [if_neg ha] at hc
      rcases List.mem_cons.mp hc with h1 | h1
      · subst h1
        exact Or.inr ⟨List.mem_cons_self c as, by simpa using ha⟩
      · rcases ih h1 with h | h
        · exact Or.inl h
        · exact Or.inr ⟨List.mem_cons_of_mem a h.1, h.2⟩

/-- With the flag set, collapseAux never emits a leading space: the
head of a maximal run was already emitted. -/
theorem collapseAux_true_head (s : Text) :
    ∀ d ∈ (collapseAux true s).head?, isPySpace d = false := by
  induction s with
  | nil => intro d hd; simp [collapseAux] at hd
  | cons a as ih =>
    intro d hd
    rw [collapseAux] at hd
    by_cases ha : isPySpace a = true
    · rw [if_pos ha] at hd
      exact ih d hd
    · rw [if_neg ha] at hd
      simp at hd
      subst hd
      simpa using ha

/-- The output of collapseAux never has two adjacent whitespace
characters. -/
theorem collapseAux_chain (s : Text) :
    ∀ b, List.Chain' noAdj (collapseAux b s) := by
  induction s with
  | nil => intro b; simp [collapseAux]
  | cons a as ih =>
    intro b
    rw [collapseAux]
    by_cases ha : isPySpace a = true
    · rw [if_pos ha]
      cases b with
      | true => exact ih true
      | false =>
        refine List.chain'_cons'.mpr ⟨?_, ih true⟩
        intro y hy
        have := collapseAux_true_head as y hy
        exact fun hcon => by rw [this] at hcon; exact absurd hcon.2 (by simp)
    · rw [if_neg ha]
      refine List.chain'_cons'.mpr ⟨?_, ih false⟩
      intro y _
      exact fun hcon => ha hcon.1

/-- The flag is irrelevant when the text does not start with
whitespace. -/
theorem collapseAux_true_eq_false {s : Text}
    (h : ∀ d ∈ s.head?, isPySpace d = false) :
    collapseAux true s = collapseAux false s := by
  match s with
  | [] => rfl
  | d :: ds =>
    have hd : isPySpace d = false := h d (by simp)
    rw [collapseAux, collapseAux, if_neg (by simp [hd]), if_neg (by simp [hd])]

/-- collapseAux is the identity on text whose whitespace characters
are all plain spaces with no two adjacent. -/
theorem collapseAux_eq_self :
    ∀ (s : Text), (∀ c ∈ s, isPySpace c = true → c = ' ') →
      List.Chain' noAdj s → collapseAux false s = s := by
  intro s
  induction s with
  | nil => intro _ _; rfl
  | cons a as ih =>
    intro hsp hch
    have hsptl : ∀ c ∈ as, isPySpace c = true → c = ' ' :=
      fun c hc => hsp c (List.mem_cons_of_mem a hc)
    have hchtl : List.Chain' noAdj as := (List.chain'_cons'.mp hch).2
    by_cases ha : isPySpace a = true
    · rw [collapseAux, if_pos ha]
      have hasp : a = ' ' := hsp a (List.mem_cons_self a as) ha
      have hhd : ∀ d ∈ as.head?, isPySpace d = false := by
        intro d hd
        have := (List.chain'_cons'.mp hch).1 d hd
        by_contra hcon
        exact this ⟨ha, by simpa using hcon⟩
      rw [collapseAux_true_eq_false hhd, ih hsptl hchtl, hasp]
      simp
    · rw [collapseAux, if_neg ha, ih hsptl hchtl]

/-- Replacing a character absent from the text changes nothing. -/
theorem replaceChar_eq_self {old new : Char} {s : Text} (h : old ∉ s) :
    replaceChar old new s = s := by
  induction s with
  | nil => rfl
  | cons a as ih =>
    have hne : a ≠ old := fun he => h (he ▸ List.mem_cons_self a as)
    simp at h
    simp [replaceChar] at ih ⊢
    exact ⟨fun he => absurd he hne, ih (fun hm => h.2 hm)⟩

/-- Membership passes from pyStrip output to its input. -/
theorem pyStrip_subset {s : Text} {c : Char} (h : c ∈ pyStrip s) : c ∈ s := by
  unfold pyStrip at h
  exact (List.dropWhile_suffix isPySpace).sublist.subset
    ((List.rdropWhile_prefix isPySpace _).sublist.subset h)

/-- pyStrip output never starts with whitespace, so a further
dropWhile is the identity. -/
theorem pyStrip_head_not (s : Text) :
    List.dropWhile isPySpace (pyStrip s) = pyStrip s := by
  match hv : pyStrip s with
  | [] => rfl
  | d :: ds =>
    have hd : isPySpace d = false := by
      obtain ⟨u, hu⟩ := List.rdropWhile_prefix isPySpace (s.dropWhile isPySpace)
      unfold pyStrip at hv
      rw [hv] at hu
      have hne : List.dropWhile isPySpace s ≠ [] := by
        rw [← hu]; simp
      have hhead := List.head_dropWhile_not isPySpace s hne
      have h1 : (List.dropWhile isPySpace s).head? = some d := by
        rw [← hu]; simp
      have h4 := List.head?_eq_head hne
      rw [h1] at h4
      rw [← Option.some.inj h4] at hhead
      exact hhead
    simp [List.dropWhile_cons, hd]

/-- pyStrip is idempotent. -/
theorem pyStrip_idem (s : Text) : pyStrip (pyStrip s) = pyStrip s := by
  show List.rdropWhile isPySpace (List.dropWhile isPySpace (pyStrip s)) = pyStrip s
  rw [pyStrip_head_not s]
  show List.rdropWhile isPySpace
    (List.rdropWhile isPySpace (List.dropWhile isPySpace s)) = pyStrip s
  rw [List.rdropWhile_idempotent]
  rfl

/-- The normalize_whitespace text rewrite, spelled out. -/
theorem normWS_eq (t : Text) :
    stepText .normalize_whitespace t =
      pyStrip (collapseSpaces (replaceChar '\n' ' ' (replaceChar '\t' ' ' t))) := rfl

/-- Claim C8: normalize_whitespace is idempotent — for every current
text state of a Cleaner, applying it twice yields the same current
text as applying it once. -/
theorem normalize_whitespace_idempotent (c : TextCleaner) :
    (applyStep (applyStep c .normalize_whitespace) .normalize_whitespace).text =
      (applyStep c .normalize_whitespace).text := by
  show stepText .normalize_whitespace (stepText .normalize_whitespace c.text) =
    stepText .normalize_whitespace c.text
  rw [normWS_eq, normWS_eq]
  set s1 := pyStrip (collapseSpaces (replaceChar '\n' ' '
    (replaceChar '\t' ' ' c.text))) with hs1
  have hmem : ∀ x ∈ s1, isPySpace x = true → x = ' ' := by
    intro x hx hpx
    have hx2 := pyStrip_subset hx
    rcases collapseAux_mem hx2 with h | h
    · exact h
    · rw [h.2] at hpx; exact absurd hpx (by simp)
  have hnotab : '\t' ∉ s1 := by
    intro hmemtab
    have := hmem '\t' hmemtab (by decide)
    exact absurd this (by decide)
  have hnonl : '\n' ∉ s1 := by
    intro hmemnl
    have := hmem '\n' hmemnl (by decide)
    exact absurd this (by decide)
  have hch : List.Chain' noAdj s1 := by
    have h1 := collapseAux_chain
      (replaceChar '\n' ' ' (replaceChar '\t' ' ' c.text)) false
    have h2 := List.Chain'.suffix h1 (List.dropWhile_suffix isPySpace)
    exact List.Chain'.prefix h2 (List.rdropWhile_prefix isPySpace _)
  rw [replaceChar_eq_self hnotab, replaceChar_eq_self hnonl]
  show pyStrip (collapseAux false s1) = s1
  rw [collapseAux_eq_self s1 hmem hch, pyStrip_idem]

/-- Transform calls never touch self.original_text. -/
theorem applyAll_original_text (c : TextCleaner) (ss : List Step) :
    (applyAll c ss).original_text = c.original_text := by
  induction ss generalizing c with
  | nil => rfl
  | cons s ss ih => exact (ih (applyStep c s)).trans rfl

/-- Claim C7: after any sequence of prior mutating transform calls on
a Cleaner, reset() restores the current text to the original
construction text (so get_cleaned_text() equals the original), clears
the step log, and returns the cleaner (the state equals a freshly
constructed cleaner, so chaining continues from it). -/
theorem reset_round_trip (t : Text) (ss : List Step) :
    get_cleaned_text (reset (applyAll (mkCleaner t) ss)) = t ∧
    (reset (applyAll (mkCleaner t) ss)).cleaning_steps = [] ∧
    reset (applyAll (mkCleaner t) ss) = mkCleaner t := by
  refine ⟨?_, rfl, ?_⟩ <;>
    simp [reset, get_cleaned_text, mkCleaner, applyAll_original_text]

/-- Claim C5: with --extract-info set, the structured-extraction stage
of process_text runs against the original, uncleaned input text: its
report equals extract_all of the input and is unchanged by whether the
cleaning stage (and its lowercase refinement) ran. -/
theorem extraction_uses_original_text (t : Text) (cl lc : Bool) :
    (process_text t ⟨cl, lc, true⟩).extraction = some (extract_all t) ∧
    (process_text t ⟨cl, lc, true⟩).extraction =
      (process_text t ⟨false, false, true⟩).extraction :=
  ⟨rfl, rfl⟩

/-- Claim C2, counterexample: the registry holds a zip_code pattern,
but the extraction report of extract_all carries exactly the ten keys
below and none for zip_code. -/
theorem extract_all_omits_zip_code_cx :
    (patterns.lookup "zip_code").isSome = true ∧
    (extract_all []).map Prod.fst =
      ["emails", "urls", "phones", "dates", "times", "currency",
       "hashtags", "mentions", "credit_cards", "ip_addresses"] ∧
    "zip_code" ∉ (extract_all []).map Prod.fst ∧
    "zip_codes" ∉ (extract_all []).map Prod.fst := by
  decide

/-- Claim C2, amended: for every input text the extraction report has
exactly one key per field type of extract_all — emails, urls, phones,
dates, times, currency, hashtags, mentions, credit_cards, ip_addresses
— each mapped to that field's possibly-empty match list; zip_code,
although its pattern is in the registry, has no key. -/
theorem extract_all_keys_amended (t : Text) :
    (extract_all t).map Prod.fst =
      ["emails", "urls", "phones", "dates", "times", "currency",
       "hashtags", "mentions", "credit_cards", "ip_addresses"] ∧
    (extract_all t).lookup "emails" = some (extract_emails t) ∧
    (extract_all t).lookup "urls" = some (extract_urls t) ∧
    (extract_all t).lookup "phones" = some (extract_phones t) ∧
    (extract_all t).lookup "dates" = some (extract_dates t) ∧
    (extract_all t).lookup "times" = some (extract_times t) ∧
    (extract_all t).lookup "currency" = some (extract_currency t) ∧
    (extract_all t).lookup "hashtags" = some (extract_hashtags t) ∧
    (extract_all t).lookup "mentions" = some (extract_mentions t) ∧
    (extract_all t).lookup "credit_cards" = some (extract_credit_cards t) ∧
    (extract_all t).lookup "ip_addresses" = some (extract_ip_addresses t) ∧
    (extract_all t).lookup "zip_code" = none := by
  refine ⟨rfl, ?_⟩
  simp [extract_all, List.lookup]

/-- Claim C6: extract_phones returns a duplicate-free list whose
members are exactly the matches of the two phone patterns (so a phone
number matched more than once in identical form appears exactly once);
in particular, on text holding the same phone number twice in
identical format it returns exactly one entry. -/
theorem extract_phones_dedup :
    (∀ t : Text, (extract_phones t).Nodup ∧
      ∀ s : Text, s ∈ extract_phones t ↔
        s ∈ findall (getPattern "phone_intl") t ++
          findall (getPattern "phone_us") t) ∧
    extract_phones ("Call 555-123-4567 or 555-123-4567".data) =
      ["555-123-4567".data] := by
  exact ⟨fun t => ⟨List.nodup_dedup _, fun s => List.mem_dedup⟩, by decide⟩

/-- Claim C10: on input text holding an e-mail address and no
social-media mention, extract_mentions returns the at sign plus the
first domain label of the e-mail, a false positive of the mention
pattern (the same text's e-mail extraction finds the full address). -/
theorem extract_mentions_email_false_positive :
    extract_mentions ("Email: john@example.com".data) = ["@example".data] ∧
    extract_emails ("Email: john@example.com".data) = ["john@example.com".data] := by
  decide

/-- Claim C1, code evaluation at the failing input: on text holding
the 24-hour time 14:30, extract_times returns the bare hour "14" — the
capture group of the time_24h pattern — not the full HH:MM token the
claim describes (findall returns group 1 when a pattern has a capture
group). -/
theorem extract_times_capture_group_bug :
    extract_times ("Meeting at 14:30".data) = ["14".data] := by
  decide

/-- Appending one record adds its chars_removed to the sum. -/
theorem sumRemoved_append (xs : List StepRecord) (r : StepRecord) :
    sumRemoved (xs ++ [r]) = sumRemoved xs + r.chars_removed := by
  simp [sumRemoved]

/-- A transform that is not a recasing logs exactly the length delta. -/
theorem loggedDelta_non_recasing (s : Step) (b a : Nat)
    (h : ¬(s = Step.to_lowercase ∨ s = Step.to_uppercase)) :
    loggedDelta s b a = (b : Int) - (a : Int) := by
  push_neg at h
  cases s <;> simp_all [loggedDelta]

/-- A recasing transform logs the constant 0. -/
theorem loggedDelta_recasing (s : Step) (b a : Nat)
    (h : s = Step.to_lowercase ∨ s = Step.to_uppercase) :
    loggedDelta s b a = 0 := by
  rcases h with h | h <;> subst h <;> rfl

/-- The length-accounting invariant is preserved by a run whose
recasing calls preserve length. -/
theorem invariant_applyAll (ss : List Step) :
    ∀ (c : TextCleaner),
      (c.text.length : Int) =
        (c.original_text.length : Int) - sumRemoved c.cleaning_steps →
      recasingSafe c ss = true →
      ((applyAll c ss).text.length : Int) =
        ((applyAll c ss).original_text.length : Int) -
          sumRemoved (applyAll c ss).cleaning_steps := by
  induction ss with
  | nil => intro c hI _; exact hI
  | cons s ss ih =>
    intro c hI hs
    rw [recasingSafe, Bool.and_eq_true] at hs
    have hstep : ((applyStep c s).text.length : Int) =
        ((applyStep c s).original_text.length : Int) -
          sumRemoved (applyStep c s).cleaning_steps := by
      show ((stepText s c.text).length : Int) =
        (c.original_text.length : Int) -
          sumRemoved (c.cleaning_steps ++
            [⟨stepName s, loggedDelta s c.text.length (stepText s c.text).length⟩])
      rw [sumRemoved_append]
      dsimp only
      by_cases hrc : s = Step.to_lowercase ∨ s = Step.to_uppercase
      · have hlen : (stepText s c.text).length = c.text.length := by
          have h1 := hs.1
          rw [if_pos hrc] at h1
          exact of_decide_eq_true h1
        rw [loggedDelta_recasing s _ _ hrc]
        simp only [hlen]
        omega
      · rw [loggedDelta_non_recasing s _ _ hrc]
        omega
    exact ih (applyStep c s) hstep hs.2

/-- Claim C3, counterexample: on the one-character text sharp-s, a
single to_uppercase call (Python uppercases it to SS) yields a report
with original_length 1, final_length 2, and one step record logging
characters_removed 0 — not the length delta -1 — so
final_length = original_length - sum(characters_removed) fails. -/
theorem cleaning_report_invariant_cx :
    ((get_report (applyStep (mkCleaner ['ß']) Step.to_uppercase)).steps_applied =
      [⟨"to_uppercase", 0⟩] ∧
     (get_report (applyStep (mkCleaner ['ß']) Step.to_uppercase)).original_length = 1 ∧
     (get_report (applyStep (mkCleaner ['ß']) Step.to_uppercase)).final_length = 2) ∧
    ¬(((get_report (applyStep (mkCleaner ['ß']) Step.to_uppercase)).final_length : Int) =
      ((get_report (applyStep (mkCleaner ['ß']) Step.to_uppercase)).original_length : Int) -
        sumRemoved (get_report (applyStep (mkCleaner ['ß']) Step.to_uppercase)).steps_applied) := by
  constructor
  · exact ⟨rfl, rfl, rfl⟩
  · decide

/-- Claim C3, amended: recasing steps log characters_removed = 0 (not
the length delta), transliterating steps log length-before minus
length-after, and the cleaning report satisfies
final_length = original_length - sum(characters_removed over the
logged steps) whenever every recasing call preserves the length of the
text it recases — in particular on ASCII input, where Python recasing
is length-preserving. -/
theorem cleaning_report_invariant (t : Text) (ss : List Step)
    (h : recasingSafe (mkCleaner t) ss = true) :
    ((get_report (applyAll (mkCleaner t) ss)).final_length : Int) =
      ((get_report (applyAll (mkCleaner t) ss)).original_length : Int) -
        sumRemoved (get_report (applyAll (mkCleaner t) ss)).steps_applied ∧
    (∀ b a : Nat, loggedDelta Step.to_lowercase b a = 0 ∧
      loggedDelta Step.to_uppercase b a = 0 ∧
      loggedDelta Step.normalize_unicode b a = (b : Int) - (a : Int)) := by
  refine ⟨?_, fun b a => ⟨rfl, rfl, rfl⟩⟩
  exact invariant_applyAll ss (mkCleaner t) (by simp [mkCleaner, sumRemoved]) h

/-- Claim C3 witness: the amended invariant instantiated on the text
"AB cd!" and the run lowercase, strip specials, uppercase. -/
theorem cleaning_report_invariant_witness :
    ((get_report (applyAll (mkCleaner ("AB cd!".data))
        [Step.to_lowercase, Step.remove_special_characters true,
         Step.to_uppercase])).final_length : Int) =
      ((get_report (applyAll (mkCleaner ("AB cd!".data))
        [Step.to_lowercase, Step.remove_special_characters true,
         Step.to_uppercase])).original_length : Int) -
        sumRemoved (get_report (applyAll (mkCleaner ("AB cd!".data))
          [Step.to_lowercase, Step.remove_special_characters true,
           Step.to_uppercase])).steps_applied :=
  (cleaning_report_invariant ("AB cd!".data)
    [Step.to_lowercase, Step.remove_special_characters true, Step.to_uppercase]
    (by decide)).1

/-- A candidate end of a concatenation splits at a candidate end of
the left part. -/
theorem mem_matchEnds_seq {t : Text} {a b : RE} {i j : Nat} {ca : Cap}
    (h : (j, ca) ∈ matchEnds t (.seq a b) i) :
    ∃ k cb cc, (k, cb) ∈ matchEnds t a i ∧ (j, cc) ∈ matchEnds t b k := by
  rw [matchEnds] at h
  rcases List.mem_flatMap.mp h with ⟨jc, hjc, hmem⟩
  rcases List.mem_map.mp hmem with ⟨kc, hkc, heq⟩
  exact ⟨jc.1, jc.2, kc.2, hjc, by rw [show j = kc.1 from (congrArg Prod.fst heq).symm]; exact hkc⟩

/-- A word-boundary assertion consumes nothing. -/
theorem mem_matchEnds_wb {t : Text} {i j : Nat} {ca : Cap}
    (h : (j, ca) ∈ matchEnds t .wb i) : j = i := by
  rw [matchEnds] at h
  split at h <;> simp at h
  exact h.1

/-- A greedy option either takes its body or consumes nothing. -/
theorem mem_matchEnds_opt {t : Text} {a : RE} {i j : Nat} {ca : Cap}
    (h : (j, ca) ∈ matchEnds t (.opt a) i) :
    (j, ca) ∈ matchEnds t a i ∨ j = i := by
  rw [matchEnds] at h
  rcases List.mem_append.mp h with h1 | h1
  · exact Or.inl h1
  · simp at h1
    exact Or.inr h1.1

/-- A single-character class consumes exactly one character. -/
theorem mem_matchEnds_cls {t : Text} {p : Char → Bool} {i j : Nat} {ca : Cap}
    (h : (j, ca) ∈ matchEnds t (.cls p) i) : j = i + 1 := by
  rw [matchEnds] at h
  split at h
  · split at h <;> simp at h
    exact h.1
  · simp at h

/-- An exact nonzero n-fold class repetition consumes exactly n
characters, all satisfying the class, all present in the text. -/
theorem mem_matchEnds_repn {t : Text} {p : Char → Bool} {n : Nat} {k j : Nat} {ca : Cap}
    (hn : 0 < n) (h : (j, ca) ∈ matchEnds t (.repCls p n (some n)) k) :
    j = k + n ∧ k + n ≤ t.length ∧ ((t.drop k).take n).all p = true := by
  rw [matchEnds] at h
  dsimp only [countRun] at h
  set run := ((t.drop k).takeWhile p).length with hrun
  by_cases hm : min run n < n
  · rw [if_pos hm] at h
    simp at h
  · rw [if_neg hm] at h
    have hle : n ≤ run := by omega
    have hmn : min run n = n := by omega
    rw [hmn] at h
    simp at h
    have hj : j = k + n := by omega
    have htw : run ≤ (t.drop k).length := (List.takeWhile_sublist p).length_le
    have hklen : k + n ≤ t.length := by
      have hdl : (t.drop k).length = t.length - k := List.length_drop k t
      have hne : (t.drop k) ≠ [] := by
        intro hnil
        rw [hnil] at htw
        simp at htw
        omega
      have : k < t.length := by
        by_contra hcon
        exact hne (List.drop_eq_nil_of_le (by omega))
      omega
    refine ⟨hj, hklen, ?_⟩
    obtain ⟨u, hu⟩ := List.takeWhile_prefix (l := t.drop k) (p := p)
    have htake : (t.drop k).take n = ((t.drop k).takeWhile p).take n := by
      conv => lhs; rw [← hu]
      exact List.take_append_of_le_length (by omega)
    rw [htake, List.all_eq_true]
    intro x hx
    exact List.mem_takeWhile_imp (List.take_subset n _ hx)

/-- Every token of a grouped-free findall scan is a slice spanning a
candidate match of the pattern. -/
theorem mem_scanFind {t : Text} {r : RE} {m : Text} :
    ∀ (fuel i : Nat), m ∈ scanFind t r false fuel i →
      ∃ q j ca, (j, ca) ∈ matchEnds t r q ∧ m = slice t q j := by
  intro fuel
  induction fuel with
  | zero => intro i h; simp [scanFind] at h
  | succ f ih =>
    intro i h
    rw [scanFind] at h
    split at h
    · simp at h
    · split at h
      case _ jc heq =>
        rcases List.mem_cons.mp h with h1 | h1
        · refine ⟨i, jc.1, jc.2, ?_, ?_⟩
          · exact List.mem_of_mem_head? (by rw [heq]; rfl)
          · rw [h1]; simp [tokenOf]
        · exact ih _ h1
      case _ => exact ih _ h

/-- Claim C4: every element of extract_credit_cards (and hence of the
credit_cards entry of extract_all) is the literal "****-****-****-"
followed by the last four characters of the corresponding raw match of
the credit-card pattern, and those four characters are digits
(the pattern ends in a four-digit group before a word boundary),
regardless of the raw match's separator style. -/
theorem credit_card_mask_shape (t : Text) :
    extract_credit_cards t =
      (findall (getPattern "credit_card") t).map
        (fun card => "****-****-****-".data ++ card.drop (card.length - 4)) ∧
    (extract_all t).lookup "credit_cards" = some (extract_credit_cards t) ∧
    (findall (getPattern "credit_card") t).all
      (fun m => decide (4 ≤ m.length) && (m.drop (m.length - 4)).all isDigitC) =
      true := by
  refine ⟨rfl, by simp [extract_all, List.lookup], ?_⟩
  · rw [List.all_eq_true]
    intro m hm
    have hm2 : m ∈ scanFind t creditCardRE false (t.length + 1) 0 := hm
    obtain ⟨q, j, ca, hmem, hsl⟩ := mem_scanFind _ _ hm2
    unfold creditCardRE at hmem
    obtain ⟨k0, _, _, hwb, h1⟩ := mem_matchEnds_seq hmem
    have hk0 : k0 = q := mem_matchEnds_wb hwb
    obtain ⟨k1, _, _, hA1, h2⟩ := mem_matchEnds_seq h1
    obtain ⟨hk1, _, _⟩ := mem_matchEnds_repn (by omega) hA1
    obtain ⟨k2, _, _, hO1, h3⟩ := mem_matchEnds_seq h2
    have hk2 : k1 ≤ k2 ∧ k2 ≤ k1 + 1 := by
      rcases mem_matchEnds_opt hO1 with hc | hc
      · rw [mem_matchEnds_cls hc]; omega
      · omega
    obtain ⟨k3, _, _, hA2, h4⟩ := mem_matchEnds_seq h3
    obtain ⟨hk3, _, _⟩ := mem_matchEnds_repn (by omega) hA2
    obtain ⟨k4, _, _, hO2, h5⟩ := mem_matchEnds_seq h4
    have hk4 : k3 ≤ k4 ∧ k4 ≤ k3 + 1 := by
      rcases mem_matchEnds_opt hO2 with hc | hc
      · rw [mem_matchEnds_cls hc]; omega
      · omega
    obtain ⟨k5, _, _, hA3, h6⟩ := mem_matchEnds_seq h5
    obtain ⟨hk5, _, _⟩ := mem_matchEnds_repn (by omega) hA3
    obtain ⟨k6, _, _, hO3, h7⟩ := mem_matchEnds_seq h6
    have hk6 : k5 ≤ k6 ∧ k6 ≤ k5 + 1 := by
      rcases mem_matchEnds_opt hO3 with hc | hc
      · rw [mem_matchEnds_cls hc]; omega
      · omega
    obtain ⟨k7, _, _, hA4, hwb2⟩ := mem_matchEnds_seq h7
    obtain ⟨hk7, hlen7, hdig⟩ := mem_matchEnds_repn (by omega) hA4
    have hj : j = k7 := mem_matchEnds_wb hwb2
    have hqk : q ≤ k6 := by omega
    have hjlen : j ≤ t.length := by omega
    have hmlen : m.length = j - q := by
      rw [hsl]
      unfold slice
      rw [List.length_take, List.length_drop]
      omega
    have h4le : 4 ≤ m.length := by omega
    rw [Bool.and_eq_true, decide_eq_true_eq]
    refine ⟨h4le, ?_⟩
    have hdrop : m.drop (m.length - 4) = (t.drop k6).take 4 := by
      rw [hsl]
      unfold slice
      rw [List.length_take, List.length_drop]
      have e1 : min (j - q) (t.length - q) = j - q := by omega
      rw [e1, List.drop_take, List.drop_drop]
      have e2 : j - q - (j - q - 4) = 4 := by omega
      have e3 : q + (j - q - 4) = k6 := by omega
      rw [e2, e3]
    rw [hdrop]
    exact hdig

end TextProc
